import Mathlib

/-!
Verification of the mm0-rs line-indexed buffer (`src/mm0-rs/src/lined_string.rs`).

Modelling conventions.  The Rust code works on UTF-8 strings indexed by byte
offset; every construct studied here (scanning for the single-byte character
LF, slicing at computed offsets, the per-offset `character` convention of the
specification) is offset-by-offset faithful on content where each character
occupies one unit, so strings are modelled as `List Char` with one offset per
element.  `usize` and `u64` values are modelled as `Nat`; the subtractions in
`to_pos` and `extend_until` occur, under the callers' documented
preconditions, only when the subtrahend is at most the minuend, so `Nat`
subtraction gives the exact machine value there (an underflow would be a
debug-assert-checked precondition violation in the Rust code).  The logging
side effect in `apply_changes` is outside the value semantics and is not
modelled.  `apply_changes` is modelled as returning an `Option`, with `none`
standing for abnormal termination: the `.unwrap()` panic, or the undefined
behavior of the unchecked suffix slicings when the resolved start lies beyond
the old or the new content.
-/

/-- Models `lsp_types::Position`: zero-based `line` and `character`. -/
structure Pos where
  line : Nat
  character : Nat
  deriving DecidableEq, Repr

/-- The derived lexicographic strict order on `lsp_types::Position`
(`line` first, then `character`), as used by `<` and `>` in `apply_changes`. -/
def posLt (a b : Pos) : Bool :=
  a.line < b.line || (a.line == b.line && a.character < b.character)

/-- The derived lexicographic order `<=` on `lsp_types::Position`,
as used by the `debug_assert!(end <= pos)` precondition of `extend_until`. -/
def posLe (a b : Pos) : Bool :=
  a.line < b.line || (a.line == b.line && a.character <= b.character)

/-- Models `LinedString`: the owned content `s` plus the line-start index
`lines`. -/
structure LinedString where
  s : List Char
  lines : List Nat
  deriving DecidableEq, Repr

/-- The newline scan shared by `get_lines` and `extend`: traversing
`char_indices` and pushing `b + off + 1` for every `'\n'` found at index `b`,
where `off` is the length of the content that precedes the scanned text
(`get_lines` is the `off = 0` instance, `extend` passes the old length).
The accumulator-free formulation pushes `i + 1` where `i = off + b` is the
absolute index, advancing `i` one character at a time. -/
def newlinesFrom (i : Nat) : List Char → List Nat
  | [] => []
  | c :: rest =>
    if c = '\n' then (i + 1) :: newlinesFrom (i + 1) rest
    else newlinesFrom (i + 1) rest

/-- Models `LinedString::get_lines`. -/
def get_lines (s : List Char) : List Nat := newlinesFrom 0 s

/-- Models `impl From<String> for LinedString`. -/
def LinedString.ofList (s : List Char) : LinedString := ⟨s, get_lines s⟩

/-- Models `self.lines.binary_search(&idx)` in `to_pos`.  Rust's slice
`binary_search` is specified on sorted slices: it returns `Ok n` with
`slice[n] = idx` when `idx` is present and `Err n` with `n` the insertion
point otherwise.  On a sorted slice the insertion point is the length of the
maximal prefix of elements below `idx`, which is how it is computed here
(`Sum.inl` is `Ok`, `Sum.inr` is `Err`). -/
def binarySearch (l : List Nat) (x : Nat) : Sum Nat Nat :=
  let n := (l.takeWhile (fun y => decide (y < x))).length
  if l.get? n = some x then Sum.inl n else Sum.inr n

/-- Models `LinedString::to_pos`.  `Ok n` gives `(pos, line) = (idx, n+1)`;
`Err n` gives `line = n` and `pos = lines[n-1]` (or `0` when `n = 0`), and the
character is `idx - pos`. -/
def LinedString.to_pos (ls : LinedString) (idx : Nat) : Pos :=
  match binarySearch ls.lines idx with
  | Sum.inl n => ⟨n + 1, idx - idx⟩
  | Sum.inr n =>
    match n with
    | 0 => ⟨0, idx - 0⟩
    | Nat.succ m => ⟨m + 1, idx - (ls.lines.get? m).getD 0⟩

/-- Models `LinedString::num_lines`. -/
def LinedString.num_lines (ls : LinedString) : Nat := ls.lines.length

/-- Models `LinedString::end` (named `endPos` since `end` is reserved). -/
def LinedString.endPos (ls : LinedString) : Pos := ls.to_pos ls.s.length

/-- Models `LinedString::to_idx`: `line = 0` resolves to `character` itself,
`line = n+1` resolves to `lines[n] + character` when `lines` has an entry at
`n` and to `None` otherwise. -/
def LinedString.to_idx (ls : LinedString) (pos : Pos) : Option Nat :=
  match pos.line with
  | 0 => some pos.character
  | Nat.succ n => (ls.lines.get? n).map (fun idx => idx + pos.character)

/-- Models `LinedString::extend`: append `t` to the content and push the
newline offsets of `t`, shifted by the old length. -/
def LinedString.extend (ls : LinedString) (t : List Char) : LinedString :=
  ⟨ls.s ++ t, ls.lines ++ newlinesFrom ls.s.length t⟩

/-- Models the scanning loop of `extend_until`'s second branch: walk the
source pushing `b + len + 1` for each newline (`i = len + b` is tracked as the
absolute index), and stop returning the rest of the source as soon as the line
count reaches `posLine`; an exhausted source returns the empty remainder. -/
def scanNewlines (posLine : Nat) (lines : List Nat) (i : Nat) :
    List Char → List Nat × List Char
  | [] => (lines, [])
  | c :: rest =>
    if c = '\n' then
      let lines2 := lines ++ [i + 1]
      if posLine = lines2.length then (lines2, rest)
      else scanNewlines posLine lines2 (i + 1) rest
    else scanNewlines posLine lines (i + 1) rest

/-- The common tail of `extend_until` after the branch on the target line:
`let (left, right) = if off < tail.len() {tail.split_at(off)} else {(tail, "")};
self.extend(left); right`, where the state is the triple of the mutated
buffer, `off` and `tail`. -/
def extendUntilFinish : LinedString × Nat × List Char → LinedString × List Char
  | (ls1, off, tail) =>
    let split := if off < tail.length then (tail.take off, tail.drop off) else (tail, [])
    (ls1.extend split.1, split.2)

/-- Models `LinedString::extend_until`.  Note the faithful transcription of
the second branch: the Rust code does `self.s.push_str(s)` (the whole source)
before the scanning loop, and afterwards `self.extend(left)` appends the split
prefix of the remainder once more.  The `debug_assert!(end <= pos)` is a
debug-only precondition check and has no value-level effect. -/
def LinedString.extend_until (ls : LinedString) (s : List Char) (pos : Pos) :
    LinedString × List Char :=
  extendUntilFinish
    (if pos.line = ls.endPos.line then
      (ls, pos.character - ls.endPos.character, s)
    else
      (⟨ls.s ++ s, (scanNewlines pos.line ls.lines ls.s.length s).1⟩,
        pos.character, (scanNewlines pos.line ls.lines ls.s.length s).2))

/-- Models `LinedString::truncate`: resolve the position; when it resolves to
an offset strictly inside the content, cut the content at that offset and keep
only the first `pos.line` entries of `lines`; otherwise do nothing. -/
def LinedString.truncate (ls : LinedString) (pos : Pos) : LinedString :=
  match ls.to_idx pos with
  | none => ls
  | some idx =>
    if idx < ls.s.length then ⟨ls.s.take idx, ls.lines.take pos.line⟩ else ls

/-- Models `lsp_types::TextDocumentContentChangeEvent`: a ranged replacement
(`stop` is LSP `end`) or a full-document replacement (absent range). -/
inductive ChangeEvent where
  | ranged (start stop : Pos) (text : List Char)
  | full (text : List Char)
  deriving DecidableEq, Repr

/-- The loop state of `apply_changes`: the output buffer `out`, the read
cursor `uncopied`, and the minimum ranged-event start `firstChange`. -/
structure ApplyState where
  out : LinedString
  uncopied : List Char
  firstChange : Option Pos
  deriving DecidableEq, Repr

/-- One iteration of the `apply_changes` event loop. -/
def applyOne (st : ApplyState) (ev : ChangeEvent) : ApplyState :=
  match ev with
  | ChangeEvent.full text =>
    { out := LinedString.ofList text, uncopied := [], firstChange := some ⟨0, 0⟩ }
  | ChangeEvent.ranged start stop text =>
    let fc : Option Pos :=
      match st.firstChange with
      | none => some start
      | some c => if posLt start c then some start else some c
    let flushed : LinedString × List Char :=
      if posLt start st.out.endPos then
        (⟨[], []⟩, (st.out.extend st.uncopied).s)
      else
        (st.out, st.uncopied)
    let stepped := flushed.1.extend_until flushed.2 stop
    { out := (stepped.1.truncate start).extend text,
      uncopied := stepped.2,
      firstChange := fc }

/-- The state after folding the whole event batch, starting from an empty
output and a cursor over the old content. -/
def runChanges (ls : LinedString) (cs : List ChangeEvent) : ApplyState :=
  cs.foldl applyOne ⟨⟨[], []⟩, ls.s, none⟩

/-- The mismatch scan at the end of `apply_changes`: zip the two suffixes and
return the index of the first differing pair (the zip stops at the shorter
suffix, exactly like zipping the two iterators). -/
def firstDiff (a b : List Char) : Option Nat :=
  List.findIdx? (fun p => decide (p.1 ≠ p.2)) (a.zip b)

/-- The finalization of `apply_changes` after the event loop: append the
remaining `uncopied` tail, then resolve the minimum tracked start against the
new buffer and scan for the first difference between old and new content from
the resolved offset.  `none` models abnormal termination: the panic of
`out.to_idx(pos).unwrap()` when the resolution fails, and likewise the
undefined behavior of `self.s.get_unchecked(start..)` /
`out.s.get_unchecked(start..)` when the resolved start exceeds the old or the
new content's length (neither is a guaranteed completion); within bounds the
unchecked suffix slicings are exactly `List.drop start`. -/
def finishChanges (ls : LinedString) (st : ApplyState) : Option (Pos × LinedString) :=
  let out := st.out.extend st.uncopied
  match st.firstChange with
  | none => some (out.endPos, out)
  | some pos =>
    match out.to_idx pos with
    | none => none
    | some start =>
      if start ≤ ls.s.length ∧ start ≤ out.s.length then
        match firstDiff (ls.s.drop start) (out.s.drop start) with
        | some b => some (out.to_pos (b + start), out)
        | none => some (out.endPos, out)
      else none

/-- Models `LinedString::apply_changes`: the event loop followed by the
finalization. -/
def LinedString.apply_changes (ls : LinedString) (cs : List ChangeEvent) :
    Option (Pos × LinedString) :=
  finishChanges ls (runChanges ls cs)

/-- The line-index invariant of `LinedString`, as stated by the
specification: `lines` is sorted strictly ascending, every entry is one past
the index of some newline character of the content, and the number of entries
equals the number of newline characters of the content. -/
def LinedString.Invariant (ls : LinedString) : Prop :=
  List.Pairwise (· < ·) ls.lines ∧
  (∀ x ∈ ls.lines, ∃ b, ls.s.get? b = some '\n' ∧ x = b + 1) ∧
  ls.lines.length = ls.s.count '\n'

/-! ## Basic lemmas -/

theorem LinedString.extend_nil (ls : LinedString) : ls.extend [] = ls := by
  cases ls with
  | mk s lines => simp [LinedString.extend, newlinesFrom]

/-! ## Claim C1 -/

/-- Claim C1 (refuted; evidence of the code bug): on the empty buffer with
source `"x\nab"` and target position `(1,1)`, `extend_until` produces the
content `"x\naba"` together with the remainder `"b"`; that content is not the
old content followed by any prefix of the source (every prefix has length at
most 4), and the buffer's logical end lands at `(1,3)` rather than at the
target `(1,1)`.  The cause is that the second branch pushes the whole source
before the newline scan and then appends the split prefix a second time. -/
theorem C1_extend_until_duplicates :
    LinedString.extend_until (LinedString.ofList "".toList) "x\nab".toList ⟨1, 1⟩ =
      (⟨"x\naba".toList, [2]⟩, "b".toList) ∧
    (∀ n, n ≤ 4 → ("x\naba".toList : List Char) ≠ "".toList ++ "x\nab".toList.take n) ∧
    (⟨"x\naba".toList, [2]⟩ : LinedString).endPos ≠ ⟨1, 1⟩ := by
  decide

/-! ## Claim C2 -/

/-- Claim C2 (counterexample): the empty buffer satisfies the invariant and
`(1,1)` satisfies `extend_until`'s stated precondition (target at least the
current end), yet `extend_until` with source `"x\n\nab"` produces a buffer
with two `lines` entries but three newline characters in the content — the
newline inside the skipped-and-duplicated region is never indexed. -/
theorem C2_counterexample :
    (LinedString.ofList "".toList).Invariant ∧
    posLe (LinedString.ofList "".toList).endPos ⟨1, 1⟩ = true ∧
    ¬ ((LinedString.ofList "".toList).extend_until "x\n\nab".toList ⟨1, 1⟩).1.Invariant :=
  ⟨⟨List.Pairwise.nil, fun x hx => absurd hx (List.not_mem_nil x), rfl⟩,
    by decide, fun h => absurd h.2.2 (by decide)⟩

/-! ## Claim C3 -/

/-- Claim C3 (counterexample): replacing old content `"abc"` by the identical
full-document text `"abc"` returns the changed-from position `(0,3)` (the new
buffer's end), not the document start `(0,0)` — the final mismatch scan runs
for full replacements too and finds no differing character. -/
theorem C3_counterexample :
    (LinedString.ofList "abc".toList).apply_changes [ChangeEvent.full "abc".toList] =
      some (⟨0, 3⟩, LinedString.ofList "abc".toList) ∧
    (⟨0, 3⟩ : Pos) ≠ ⟨0, 0⟩ := by
  decide

/-! ## Claims C4, C5: counterexamples -/

/-- Claim C4 (counterexample): a single ranged event whose positions lie
beyond the buffer's extent (start line 5 on an empty buffer) makes
`apply_changes` reach the `unwrap` panic: the minimum tracked start does not
resolve against the new buffer's line index. -/
theorem C4_counterexample :
    (LinedString.ofList "".toList).apply_changes
        [ChangeEvent.ranged ⟨5, 0⟩ ⟨5, 0⟩ "x".toList] = none := by
  decide

/-- Claim C5 (counterexample): a batch of two ranged events with the second
event's start `(4,0)` below the first event's end `(6,0)` crashes (the
`unwrap` panic) when the events' positions lie beyond the buffer's extent,
contradicting the claim that every such batch must not crash. -/
theorem C5_counterexample :
    posLt ⟨4, 0⟩ ⟨6, 0⟩ = true ∧
    (LinedString.ofList "".toList).apply_changes
        [ChangeEvent.ranged ⟨5, 0⟩ ⟨6, 0⟩ [], ChangeEvent.ranged ⟨4, 0⟩ ⟨4, 0⟩ []] =
      none := by
  decide

/-! ## Claim C5: the amended statement -/

/-- Follows the specification's words for applying one ranged edit directly
against given content: resolve both positions against that content and
replace the byte range between them by the event's text; the net combined
edit of a batch is the sequential composition of these direct edits. -/
def spliceSpec (content : List Char) (start stop : Pos) (text : List Char) :
    Option (List Char) :=
  match (LinedString.ofList content).to_idx start,
      (LinedString.ofList content).to_idx stop with
  | some a, some b => some (content.take a ++ text ++ content.drop b)
  | _, _ => none

/-- Claim C5 (amended): when the overlapping batch's positions lie within the
buffer, `apply_changes` completes and produces the same content as applying
the net combined edit directly against the original content.  Concretely: on
`"abcdef"`, the batch replacing `(0,2)..(0,4)` by `"XY"` and then
`(0,1)..(0,3)` by `"Z"` has its second start `(0,1)` below the first end
`(0,4)`, exercises the flush-and-restart path (the second start lies below
the output's logical end `(0,4)` reached after the first event), returns
content `"aZYef"`, and the direct sequential application of the two edits
gives the same content. -/
theorem C5_amended :
    posLt ⟨0, 1⟩ ⟨0, 4⟩ = true ∧
    posLt ⟨0, 1⟩
        ((runChanges (LinedString.ofList "abcdef".toList)
          [ChangeEvent.ranged ⟨0, 2⟩ ⟨0, 4⟩ "XY".toList]).out.endPos) = true ∧
    (LinedString.ofList "abcdef".toList).apply_changes
        [ChangeEvent.ranged ⟨0, 2⟩ ⟨0, 4⟩ "XY".toList,
         ChangeEvent.ranged ⟨0, 1⟩ ⟨0, 3⟩ "Z".toList] =
      some (⟨0, 1⟩, LinedString.ofList "aZYef".toList) ∧
    (spliceSpec "abcdef".toList ⟨0, 2⟩ ⟨0, 4⟩ "XY".toList).bind
        (fun m => spliceSpec m ⟨0, 1⟩ ⟨0, 3⟩ "Z".toList) =
      some (LinedString.ofList "aZYef".toList).s := by
  decide

/-! ## Claim C6 -/

/-- Claim C6 (confirmed): on old content `"abc\ndef\n"`, the single ranged
event replacing `(1,0)..(1,3)` by `"xyz"` yields new content `"abc\nxyz\n"`
and changed-from position `(1,0)`. -/
theorem C6_single_ranged_edit :
    (LinedString.ofList "abc\ndef\n".toList).apply_changes
        [ChangeEvent.ranged ⟨1, 0⟩ ⟨1, 3⟩ "xyz".toList] =
      some (⟨1, 0⟩, LinedString.ofList "abc\nxyz\n".toList) := by
  decide

/-! ## Claim C3: the amended statement -/

/-- Finalizing after a trailing full-document replacement: the changed-from
result is governed entirely by the mismatch scan between the old and the new
content starting at offset `0`. -/
theorem finishChanges_full (ls out : LinedString) :
    finishChanges ls ⟨out, [], some ⟨0, 0⟩⟩ =
      match firstDiff ls.s out.s with
      | some n => some (out.to_pos n, out)
      | none => some (out.endPos, out) := by
  unfold finishChanges
  simp only [LinedString.extend_nil, LinedString.to_idx, List.drop_zero, Nat.add_zero]
  rw [if_pos ⟨Nat.zero_le _, Nat.zero_le _⟩]

/-- Claim C3 (amended): a full-document replacement records the tracked
changed-from position as the document start, but the returned changed-from
position is then computed by the mismatch scan: it is the position of the
first character at which old and new content differ, and when no difference
is found within the common length (in particular when old and new content are
identical, as in the `"abc"`/`"abc"` instance) it is the new buffer's end
position, not the document start. -/
theorem C3_amended (a b : List Char) :
    (LinedString.ofList a).apply_changes [ChangeEvent.full b] =
      match firstDiff a b with
      | some n => some ((LinedString.ofList b).to_pos n, LinedString.ofList b)
      | none => some ((LinedString.ofList b).endPos, LinedString.ofList b) := by
  have h1 : runChanges (LinedString.ofList a) [ChangeEvent.full b] =
      ⟨LinedString.ofList b, [], some ⟨0, 0⟩⟩ := rfl
  show finishChanges (LinedString.ofList a) _ = _
  rw [h1, finishChanges_full]
  simp only [LinedString.ofList]

/-! ## Claim C4: the amended statement -/

/-- Claim C4 (amended): `apply_changes` runs to completion and returns a pair
whenever the minimum tracked event-start position resolves against the new
buffer's line index to an offset within both the old and the new content
lengths (so the final unchecked suffix slicings are in bounds).  Completion
is not guaranteed otherwise: a start whose line exceeds the final buffer's
line count makes the resolution fail and the code panics on the `unwrap`
instead of treating the absence as nothing to do, and a start resolving past
either content's length makes the code slice out of bounds with
`get_unchecked` (undefined behavior). -/
theorem C4_amended (ls : LinedString) (cs : List ChangeEvent)
    (h : ∀ pos, (runChanges ls cs).firstChange = some pos →
      ∃ start,
        ((runChanges ls cs).out.extend (runChanges ls cs).uncopied).to_idx pos
          = some start ∧
        start ≤ ls.s.length ∧
        start ≤ ((runChanges ls cs).out.extend (runChanges ls cs).uncopied).s.length) :
    (ls.apply_changes cs).isSome = true := by
  unfold LinedString.apply_changes finishChanges
  cases hfc : (runChanges ls cs).firstChange with
  | none => simp [hfc]
  | some pos =>
    obtain ⟨start, hidx, hb1, hb2⟩ := h pos hfc
    cases hd : firstDiff (ls.s.drop start)
        (((runChanges ls cs).out.extend (runChanges ls cs).uncopied).s.drop start) with
    | none => simp [hidx, hd, hb1, hb2]
    | some b => simp [hidx, hd, hb1, hb2]

/-- Claim C4 witness: a concrete in-extent batch on which the hypothesis of
the amended statement holds (the minimum start resolves to offset 4, within
both the old and the new content of length 8) and `apply_changes` therefore
completes. -/
theorem C4_witness :
    ((LinedString.ofList "abc\ndef\n".toList).apply_changes
      [ChangeEvent.ranged ⟨1, 0⟩ ⟨1, 3⟩ "xyz".toList]).isSome = true :=
  C4_amended _ _ (fun pos h => by
    have h3 : some (Pos.mk 1 0) = some pos := h
    injection h3 with h4
    rw [← h4]
    exact ⟨4, by decide, by decide, by decide⟩)

/-! ## Claim C8 -/

/-- Claim C8 (confirmed): when `to_idx` returns no offset for the position,
or the resolved offset is not strictly inside the content, `truncate` leaves
the buffer completely unchanged (and, being total, does not panic). -/
theorem C8_truncate_noop (ls : LinedString) (pos : Pos)
    (h : ∀ idx, ls.to_idx pos = some idx → ¬ idx < ls.s.length) :
    ls.truncate pos = ls := by
  cases hidx : ls.to_idx pos with
  | none => simp [LinedString.truncate, hidx]
  | some idx => simp [LinedString.truncate, hidx, h idx hidx]

/-- Claim C8 witness: truncating `"ab"` at the out-of-extent position `(3,0)`
(where `to_idx` returns no offset) changes nothing. -/
theorem C8_witness :
    (LinedString.ofList "ab".toList).truncate ⟨3, 0⟩ = LinedString.ofList "ab".toList :=
  C8_truncate_noop _ _ (fun idx h => Option.noConfusion h)

/-! ## Claim C10 -/

/-- Claim C10 (confirmed): `to_idx` never validates the character component:
on line `0` it returns the character itself, and on a stored line `l` (with
`1 ≤ l ≤ lines.len()`) it returns `lines[l-1] + c`, for every character value
`c` whatsoever. -/
theorem C10_to_idx_unvalidated (ls : LinedString) :
    (∀ c, ls.to_idx ⟨0, c⟩ = some c) ∧
    (∀ l c (h1 : 1 ≤ l) (h2 : l ≤ ls.lines.length),
      ls.to_idx ⟨l, c⟩ = some (ls.lines.get ⟨l - 1, by omega⟩ + c)) := by
  refine ⟨fun c => rfl, ?_⟩
  intro l c h1 h2
  cases l with
  | zero => exact absurd h1 (by omega)
  | succ m =>
    have hm : m < ls.lines.length := by omega
    rw [show ls.to_idx ⟨m + 1, c⟩ = (ls.lines.get? m).map (fun idx => idx + c) from rfl,
      List.get?_eq_get hm]
    rfl

/-- Claim C10 witness: on `"a\nb"` (content length 3, `lines = [2]`), the
position `(1,7)` resolves to offset `2 + 7 = 9`, far beyond the content. -/
theorem C10_witness :
    1 ≤ 1 ∧ 1 ≤ (LinedString.ofList "a\nb".toList).lines.length ∧
    (LinedString.ofList "a\nb".toList).to_idx ⟨1, 7⟩ = some 9 ∧
    (LinedString.ofList "a\nb".toList).s.length < 9 :=
  ⟨by decide, by decide,
    (C10_to_idx_unvalidated (LinedString.ofList "a\nb".toList)).2 1 7 (by decide) (by decide),
    by decide⟩

/-! ## Newline-scan lemmas -/

theorem newlinesFrom_append (a b : List Char) :
    ∀ i, newlinesFrom i (a ++ b) = newlinesFrom i a ++ newlinesFrom (i + a.length) b := by
  induction a with
  | nil => intro i; simp [newlinesFrom]
  | cons c t ih =>
    intro i
    have h2 : i + (t.length + 1) = i + 1 + t.length := by omega
    by_cases hc : c = '\n'
    · simp [newlinesFrom, hc, ih (i + 1), h2]
    · simp [newlinesFrom, hc, ih (i + 1), h2]

theorem mem_newlinesFrom {x : Nat} {s : List Char} :
    ∀ {i}, x ∈ newlinesFrom i s → i < x ∧ x ≤ i + s.length := by
  induction s with
  | nil => intro i h; simp [newlinesFrom] at h
  | cons c t ih =>
    intro i h
    by_cases hc : c = '\n'
    · simp only [newlinesFrom, hc, if_pos] at h
      rcases List.mem_cons.mp h with h1 | h1
      · subst h1; simp only [List.length_cons]; omega
      · have := ih h1; simp only [List.length_cons]; omega
    · simp only [newlinesFrom, hc, if_neg, ite_false] at h
      have := ih h
      simp only [List.length_cons]
      omega

theorem mem_newlinesFrom_iff {x : Nat} {s : List Char} :
    ∀ {i}, x ∈ newlinesFrom i s ↔ ∃ b, s.get? b = some '\n' ∧ x = i + b + 1 := by
  induction s with
  | nil => intro i; simp [newlinesFrom]
  | cons c t ih =>
    intro i
    constructor
    · intro h
      by_cases hc : c = '\n'
      · simp only [newlinesFrom, hc, if_pos] at h
        rcases List.mem_cons.mp h with h1 | h1
        · exact ⟨0, by simp [hc], by omega⟩
        · obtain ⟨b, hb1, hb2⟩ := ih.mp h1
          exact ⟨b + 1, by simpa using hb1, by omega⟩
      · simp only [newlinesFrom, hc, if_neg, ite_false] at h
        obtain ⟨b, hb1, hb2⟩ := ih.mp h
        exact ⟨b + 1, by simpa using hb1, by omega⟩
    · rintro ⟨b, hb1, hb2⟩
      cases b with
      | zero =>
        have hc : c = '\n' := by simpa using hb1
        simp [newlinesFrom, hc]
        omega
      | succ m =>
        have hm : t.get? m = some '\n' := by simpa using hb1
        have hx : x ∈ newlinesFrom (i + 1) t := ih.mpr ⟨m, hm, by omega⟩
        by_cases hc : c = '\n'
        · simp [newlinesFrom, hc]
          exact Or.inr hx
        · simpa [newlinesFrom, hc] using hx

theorem length_newlinesFrom (s : List Char) :
    ∀ i, (newlinesFrom i s).length = s.count '\n' := by
  induction s with
  | nil => intro i; simp [newlinesFrom]
  | cons c t ih =>
    intro i
    by_cases hc : c = '\n'
    · simp [newlinesFrom, hc, ih (i + 1), List.count_cons]
    · simp [newlinesFrom, hc, ih (i + 1), List.count_cons, Ne.symm hc]

theorem pairwise_newlinesFrom (s : List Char) :
    ∀ i, List.Pairwise (· < ·) (newlinesFrom i s) := by
  induction s with
  | nil => intro i; simp [newlinesFrom]
  | cons c t ih =>
    intro i
    by_cases hc : c = '\n'
    · simp only [newlinesFrom, hc, if_pos]
      refine List.pairwise_cons.mpr ⟨?_, ih (i + 1)⟩
      intro y hy
      have := mem_newlinesFrom hy
      omega
    · simpa [newlinesFrom, hc] using ih (i + 1)

/-- The three-conjunct invariant is equivalent to the canonical statement:
`lines` is exactly the line-start index computed from the content. -/
theorem invariant_iff (ls : LinedString) : ls.Invariant ↔ ls.lines = get_lines ls.s := by
  constructor
  · rintro ⟨hs, hmem, hlen⟩
    have hsub : ls.lines ⊆ get_lines ls.s := by
      intro x hx
      obtain ⟨b, hb1, hb2⟩ := hmem x hx
      exact mem_newlinesFrom_iff.mpr ⟨b, hb1, by omega⟩
    have hnd : ls.lines.Nodup := hs.imp (fun h => Nat.ne_of_lt h)
    have hlen2 : (get_lines ls.s).length ≤ ls.lines.length := by
      rw [hlen, get_lines, length_newlinesFrom]
    have hperm : ls.lines.Perm (get_lines ls.s) :=
      (hnd.subperm hsub).perm_of_length_le hlen2
    haveI : IsAntisymm Nat (· < ·) := ⟨fun a b h h2 => absurd h2 (Nat.lt_asymm h)⟩
    exact List.eq_of_perm_of_sorted hperm hs (pairwise_newlinesFrom ls.s 0)
  · intro h
    refine ⟨h ▸ pairwise_newlinesFrom ls.s 0, ?_, ?_⟩
    · intro x hx
      rw [h] at hx
      obtain ⟨b, hb1, hb2⟩ := mem_newlinesFrom_iff.mp hx
      exact ⟨b, hb1, by omega⟩
    · rw [h, get_lines, length_newlinesFrom]

/-! ## takeWhile lemmas for the binary-search model -/

theorem get_of_lt_takeWhile {p : Nat → Bool} {l : List Nat} {m : Nat}
    (hm : m < (l.takeWhile p).length) :
    ∃ v, l.get? m = some v ∧ p v = true := by
  obtain ⟨t, ht⟩ := List.takeWhile_prefix p (l := l)
  refine ⟨(l.takeWhile p).get ⟨m, hm⟩, ?_, ?_⟩
  · have h1 : l.get? m = (l.takeWhile p ++ t).get? m := by rw [ht]
    rw [h1, List.get?_append hm, List.get?_eq_get hm]
  · exact List.mem_takeWhile_imp (List.get_mem _ m hm)

theorem length_takeWhile_mono {p q : Nat → Bool} (hpq : ∀ a, p a = true → q a = true) :
    ∀ l : List Nat, (l.takeWhile p).length ≤ (l.takeWhile q).length := by
  intro l
  induction l with
  | nil => simp
  | cons c t ih =>
    by_cases hc : p c
    · simp [List.takeWhile_cons, hc, hpq c hc]
      omega
    · simp [List.takeWhile_cons, hc]

theorem le_length_takeWhile {p : Nat → Bool} :
    ∀ {l : List Nat} {k : Nat}, k ≤ l.length →
      (∀ i, i < k → ∀ v, l.get? i = some v → p v = true) →
      k ≤ (l.takeWhile p).length := by
  intro l
  induction l with
  | nil => intro k hk h; simpa using hk
  | cons c t ih =>
    intro k hk h
    cases k with
    | zero => omega
    | succ j =>
      have hc : p c = true := h 0 (by omega) c rfl
      have hj : j ≤ (t.takeWhile p).length :=
        ih (by simpa using hk) (fun i hi v hv => h (i + 1) (by omega) v (by simpa using hv))
      simp [List.takeWhile_cons, hc]
      omega

theorem take_length_takeWhile {p : Nat → Bool} :
    ∀ l : List Nat, l.take ((l.takeWhile p).length) = l.takeWhile p := by
  intro l
  induction l with
  | nil => simp
  | cons c t ih =>
    by_cases hc : p c
    · simp [List.takeWhile_cons, hc, ih]
    · simp [List.takeWhile_cons, hc]

/-- Characterization of `to_pos` through the insertion-point computation of
the binary-search model. -/
theorem to_pos_eq (ls : LinedString) (x : Nat) :
    ls.to_pos x =
      if ls.lines.get? ((ls.lines.takeWhile (fun y => decide (y < x))).length) = some x
      then ⟨(ls.lines.takeWhile (fun y => decide (y < x))).length + 1, 0⟩
      else
        match (ls.lines.takeWhile (fun y => decide (y < x))).length with
        | 0 => ⟨0, x⟩
        | Nat.succ m => ⟨m + 1, x - (ls.lines.get? m).getD 0⟩ := by
  unfold LinedString.to_pos binarySearch
  by_cases hg :
      ls.lines.get? ((ls.lines.takeWhile (fun y => decide (y < x))).length) = some x
  · rw [if_pos hg, if_pos hg]
    simp only [Nat.sub_self]
  · rw [if_neg hg, if_neg hg]
    simp only [Nat.sub_zero]

/-! ## Claim C7 -/

/-- Claim C7 (confirmed): for a buffer satisfying the line-index invariant
and any offset at most the content length, `to_idx` is a left inverse of
`to_pos`: `to_idx (to_pos o) = some o`. -/
theorem C7_round_trip (ls : LinedString) (hinv : ls.Invariant) (o : Nat)
    (ho : o ≤ ls.s.length) :
    ls.to_idx (ls.to_pos o) = some o := by
  rw [to_pos_eq]
  by_cases hg :
      ls.lines.get? ((ls.lines.takeWhile (fun y => decide (y < o))).length) = some o
  · rw [if_pos hg]
    have e1 : ls.to_idx ⟨(ls.lines.takeWhile (fun y => decide (y < o))).length + 1, 0⟩
        = (ls.lines.get? ((ls.lines.takeWhile (fun y => decide (y < o))).length)).map
            (fun idx => idx + 0) := rfl
    rw [e1, hg]
    rfl
  · rw [if_neg hg]
    cases hN : (ls.lines.takeWhile (fun y => decide (y < o))).length with
    | zero => rfl
    | succ m =>
      have hm : m < (ls.lines.takeWhile (fun y => decide (y < o))).length := by omega
      obtain ⟨v, hv, hvlt⟩ := get_of_lt_takeWhile hm
      have hvo : v < o := by simpa using hvlt
      have e1 : ls.to_idx ⟨m + 1, o - (ls.lines.get? m).getD 0⟩
          = (ls.lines.get? m).map (fun idx => idx + (o - (ls.lines.get? m).getD 0)) := rfl
      rw [e1, hv]
      show some (v + (o - v)) = some o
      rw [Nat.add_sub_cancel' (Nat.le_of_lt hvo)]

/-- Claim C7 witness: the invariant holds for the buffer built from
`"a\nb"`, the offset `2` is within the content, and the round trip returns
`some 2`. -/
theorem C7_witness :
    (LinedString.ofList "a\nb".toList).Invariant ∧
    2 ≤ (LinedString.ofList "a\nb".toList).s.length ∧
    (LinedString.ofList "a\nb".toList).to_idx
        ((LinedString.ofList "a\nb".toList).to_pos 2) = some 2 :=
  ⟨(invariant_iff _).mpr rfl, by decide,
    C7_round_trip _ ((invariant_iff _).mpr rfl) 2 (by decide)⟩

/-! ## Claim C9 -/

/-- Claim C9 (confirmed): under the line-index invariant, `to_pos` is
monotone: for offsets `o1 < o2` (both within the content), the line of `o1`
is at most the line of `o2`, and when the lines agree the character of `o1`
is strictly below the character of `o2`. -/
theorem C9_to_pos_monotone (ls : LinedString) (hinv : ls.Invariant) (o1 o2 : Nat)
    (h12 : o1 < o2) (ho1 : o1 ≤ ls.s.length) (ho2 : o2 ≤ ls.s.length) :
    (ls.to_pos o1).line ≤ (ls.to_pos o2).line ∧
    ((ls.to_pos o1).line = (ls.to_pos o2).line →
      (ls.to_pos o1).character < (ls.to_pos o2).character) := by
  rw [to_pos_eq ls o1, to_pos_eq ls o2]
  have hmono0 : (ls.lines.takeWhile (fun y => decide (y < o1))).length ≤
      (ls.lines.takeWhile (fun y => decide (y < o2))).length :=
    length_takeWhile_mono
      (fun a ha => by simp only [decide_eq_true_eq] at ha ⊢; omega) ls.lines
  set n1 := (ls.lines.takeWhile (fun y => decide (y < o1))).length with hn1
  set n2 := (ls.lines.takeWhile (fun y => decide (y < o2))).length with hn2
  by_cases h1 : ls.lines.get? n1 = some o1 <;>
    by_cases h2 : ls.lines.get? n2 = some o2
  · -- both offsets are stored line starts
    obtain ⟨hl1, -⟩ := List.get?_eq_some.mp h1
    have hkey : n1 + 1 ≤ n2 := by
      rw [hn2]
      refine le_length_takeWhile (by omega) ?_
      intro i hi v hv
      simp only [decide_eq_true_eq]
      rcases Nat.lt_or_ge i n1 with hlt2 | hge
      · have hlt3 : i < (ls.lines.takeWhile (fun y => decide (y < o1))).length := by
          rw [← hn1]; exact hlt2
        obtain ⟨w, hw, hwp⟩ := get_of_lt_takeWhile hlt3
        have hwo : w < o1 := by simpa using hwp
        have hvw : v = w := by rw [hv] at hw; exact Option.some.inj hw
        omega
      · have hieq : i = n1 := by omega
        subst hieq
        have hvo : v = o1 := by rw [hv] at h1; exact Option.some.inj h1
        omega
    rw [if_pos h1, if_pos h2]
    refine ⟨?_, ?_⟩
    · show n1 + 1 ≤ n2 + 1
      omega
    · intro he
      have he2 : n1 + 1 = n2 + 1 := he
      exact absurd he2 (by omega)
  · -- o1 is a stored line start, o2 is not
    obtain ⟨hl1, -⟩ := List.get?_eq_some.mp h1
    have hkey : n1 + 1 ≤ n2 := by
      rw [hn2]
      refine le_length_takeWhile (by omega) ?_
      intro i hi v hv
      simp only [decide_eq_true_eq]
      rcases Nat.lt_or_ge i n1 with hlt2 | hge
      · have hlt3 : i < (ls.lines.takeWhile (fun y => decide (y < o1))).length := by
          rw [← hn1]; exact hlt2
        obtain ⟨w, hw, hwp⟩ := get_of_lt_takeWhile hlt3
        have hwo : w < o1 := by simpa using hwp
        have hvw : v = w := by rw [hv] at hw; exact Option.some.inj hw
        omega
      · have hieq : i = n1 := by omega
        subst hieq
        have hvo : v = o1 := by rw [hv] at h1; exact Option.some.inj h1
        omega
    rw [if_pos h1, if_neg h2]
    cases hN2 : n2 with
    | zero => exact absurd (hN2 ▸ hkey) (by omega)
    | succ m2 =>
      refine ⟨?_, ?_⟩
      · show n1 + 1 ≤ m2 + 1
        omega
      · intro he
        have he2 : n1 + 1 = m2 + 1 := he
        have hm_eq : m2 = n1 := by omega
        subst hm_eq
        show 0 < o2 - (ls.lines.get? n1).getD 0
        rw [h1]
        show 0 < o2 - o1
        omega
  · -- o2 is a stored line start, o1 is not
    rw [if_neg h1, if_pos h2]
    cases hN1 : n1 with
    | zero =>
      refine ⟨?_, ?_⟩
      · show 0 ≤ n2 + 1
        omega
      · intro he
        have he2 : 0 = n2 + 1 := he
        exact absurd he2 (by omega)
    | succ m1 =>
      refine ⟨?_, ?_⟩
      · show m1 + 1 ≤ n2 + 1
        omega
      · intro he
        have he2 : m1 + 1 = n2 + 1 := he
        exact absurd he2 (by omega)
  · -- neither offset is a stored line start
    rw [if_neg h1, if_neg h2]
    cases hN1 : n1 with
    | zero =>
      cases hN2 : n2 with
      | zero =>
        refine ⟨Nat.le.refl, ?_⟩
        intro he
        show o1 < o2
        omega
      | succ m2 =>
        refine ⟨?_, ?_⟩
        · show 0 ≤ m2 + 1
          omega
        · intro he
          have he2 : 0 = m2 + 1 := he
          exact absurd he2 (by omega)
    | succ m1 =>
      cases hN2 : n2 with
      | zero => exact absurd (hN1 ▸ hN2 ▸ hmono0) (by omega)
      | succ m2 =>
        refine ⟨?_, ?_⟩
        · show m1 + 1 ≤ m2 + 1
          omega
        · intro he
          have he2 : m1 + 1 = m2 + 1 := he
          have hm_eq : m2 = m1 := by omega
          subst hm_eq
          have hlt3 : m2 < (ls.lines.takeWhile (fun y => decide (y < o1))).length := by
            rw [← hn1]; omega
          obtain ⟨v, hv, hvp⟩ := get_of_lt_takeWhile hlt3
          have hvo : v < o1 := by simpa using hvp
          show o1 - (ls.lines.get? m2).getD 0 < o2 - (ls.lines.get? m2).getD 0
          rw [hv]
          show o1 - v < o2 - v
          omega

/-- Claim C9 witness: a concrete instance on the buffer `"a\nb"` with
offsets `1 < 2`. -/
theorem C9_witness :
    (LinedString.ofList "a\nb".toList).Invariant ∧ 1 < 2 ∧
    2 ≤ (LinedString.ofList "a\nb".toList).s.length ∧
    ((LinedString.ofList "a\nb".toList).to_pos 1).line ≤
      ((LinedString.ofList "a\nb".toList).to_pos 2).line :=
  ⟨(invariant_iff _).mpr rfl, by decide, by decide,
    (C9_to_pos_monotone _ ((invariant_iff _).mpr rfl) 1 2 (by decide) (by decide)
      (by decide)).1⟩

/-! ## Claim C2: the amended statement -/

theorem extend_invariant (ls : LinedString) (t : List Char) (h : ls.Invariant) :
    (ls.extend t).Invariant := by
  rw [invariant_iff] at h ⊢
  show ls.lines ++ newlinesFrom ls.s.length t = get_lines (ls.s ++ t)
  rw [h, get_lines, get_lines, newlinesFrom_append, Nat.zero_add]

theorem newlinesFrom_cons_nl (i : Nat) (l : List Char) :
    newlinesFrom i ('\n' :: l) = (i + 1) :: newlinesFrom (i + 1) l := by
  simp [newlinesFrom]

theorem newlinesFrom_cons_other {c : Char} (hc : ¬ c = '\n') (i : Nat) (l : List Char) :
    newlinesFrom i (c :: l) = newlinesFrom (i + 1) l := by
  simp [newlinesFrom, hc]

theorem newlinesFrom_take (s : List Char) :
    ∀ i k, newlinesFrom i (s.take k) =
      (newlinesFrom i s).filter (fun x => decide (x ≤ i + k)) := by
  induction s with
  | nil => intro i k; simp [newlinesFrom]
  | cons c t ih =>
    intro i k
    cases k with
    | zero =>
      rw [List.take_zero]
      show ([] : List Nat) = _
      symm
      rw [List.filter_eq_nil]
      intro a ha
      have hb := mem_newlinesFrom ha
      simp only [decide_eq_true_eq]
      omega
    | succ j =>
      have harith : i + 1 + j = i + (j + 1) := by omega
      by_cases hc : c = '\n'
      · subst hc
        rw [List.take_succ_cons, newlinesFrom_cons_nl, newlinesFrom_cons_nl,
          List.filter_cons_of_pos (by simp only [decide_eq_true_eq]; omega),
          ih (i + 1) j, harith]
      · rw [List.take_succ_cons, newlinesFrom_cons_other hc, newlinesFrom_cons_other hc,
          ih (i + 1) j, harith]

theorem filter_eq_takeWhile_sorted {p : Nat → Bool}
    (hp : ∀ a b, a ≤ b → p b = true → p a = true) :
    ∀ {l : List Nat}, List.Pairwise (· < ·) l → l.filter p = l.takeWhile p := by
  intro l
  induction l with
  | nil => intro h; rfl
  | cons c t ih =>
    intro hs
    obtain ⟨hhead, htail⟩ := List.pairwise_cons.mp hs
    by_cases hc : p c = true
    · rw [List.filter_cons_of_pos hc, List.takeWhile_cons_of_pos hc, ih htail]
    · rw [List.filter_cons_of_neg hc, List.takeWhile_cons_of_neg hc]
      rw [List.filter_eq_nil]
      intro a ha hpa
      exact hc (hp c a (Nat.le_of_lt (hhead a ha)) hpa)

theorem truncate_invariant (ls : LinedString) (pos : Pos) (h : ls.Invariant)
    (hc : ∀ idx, ls.to_idx pos = some idx →
      ls.lines.countP (fun y => decide (y ≤ idx)) = pos.line) :
    (ls.truncate pos).Invariant := by
  cases hidx : ls.to_idx pos with
  | none => simpa [LinedString.truncate, hidx] using h
  | some idx =>
    by_cases hlt : idx < ls.s.length
    · have hcount := hc idx hidx
      have hiff := (invariant_iff ls).mp h
      have hsort : List.Pairwise (· < ·) ls.lines := by
        rw [hiff]; exact pairwise_newlinesFrom _ 0
      have e1 : ls.truncate pos = ⟨ls.s.take idx, ls.lines.take pos.line⟩ := by
        simp [LinedString.truncate, hidx, hlt]
      rw [e1, invariant_iff]
      show ls.lines.take pos.line = get_lines (ls.s.take idx)
      have hdown : ∀ a b : Nat, a ≤ b →
          (fun x => decide (x ≤ idx)) b = true → (fun x => decide (x ≤ idx)) a = true := by
        intro a b hab hb
        simp only [decide_eq_true_eq] at hb ⊢
        omega
      rw [get_lines, newlinesFrom_take, Nat.zero_add, ← get_lines, ← hiff]
      rw [filter_eq_takeWhile_sorted hdown hsort, ← hcount,
        List.countP_eq_length_filter, filter_eq_takeWhile_sorted hdown hsort,
        take_length_takeWhile]
    · have e1 : ls.truncate pos = ls := by
        simp [LinedString.truncate, hidx, hlt]
      rw [e1]
      exact h

theorem extendUntilFinish_invariant (z : LinedString × Nat × List Char)
    (h : z.1.Invariant) : (extendUntilFinish z).1.Invariant := by
  obtain ⟨ls1, off, tail⟩ := z
  show (ls1.extend (if off < tail.length then (tail.take off, tail.drop off)
      else (tail, [])).1).Invariant
  exact extend_invariant _ _ h

theorem extend_until_invariant_same_line (ls : LinedString) (t : List Char) (pos : Pos)
    (h : ls.Invariant) (hline : pos.line = ls.endPos.line) :
    (ls.extend_until t pos).1.Invariant := by
  unfold LinedString.extend_until
  rw [if_pos hline]
  exact extendUntilFinish_invariant _ h

/-- Claim C2 (amended): `extend` always preserves the line-index invariant;
`truncate` preserves it provided the number of line entries at most the
resolved offset equals `position.line` (so the character component does not
reach past the end of its line); and `extend_until` preserves it when the
target lies on the buffer's current final line — in its other branch it can
break the invariant even under its own `end <= pos` precondition
(`C2_counterexample`). -/
theorem C2_amended :
    (∀ (ls : LinedString) (t : List Char), ls.Invariant → (ls.extend t).Invariant) ∧
    (∀ (ls : LinedString) (pos : Pos), ls.Invariant →
      (∀ idx, ls.to_idx pos = some idx →
        ls.lines.countP (fun y => decide (y ≤ idx)) = pos.line) →
      (ls.truncate pos).Invariant) ∧
    (∀ (ls : LinedString) (t : List Char) (pos : Pos), ls.Invariant →
      pos.line = ls.endPos.line → (ls.extend_until t pos).1.Invariant) :=
  ⟨fun ls t h => extend_invariant ls t h,
   fun ls pos h hc => truncate_invariant ls pos h hc,
   fun ls t pos h hl => extend_until_invariant_same_line ls t pos h hl⟩

/-- Claim C2 witness: concrete instances of all three preserved operations. -/
theorem C2_witness :
    ((LinedString.ofList "ab".toList).extend "c\nd".toList).Invariant ∧
    ((LinedString.ofList "ab\ncd\n".toList).truncate ⟨1, 0⟩).Invariant ∧
    ((LinedString.ofList "ab".toList).extend_until "cd".toList ⟨0, 3⟩).1.Invariant :=
  ⟨C2_amended.1 _ _ ((invariant_iff _).mpr rfl),
   C2_amended.2.1 _ _ ((invariant_iff _).mpr rfl)
     (fun idx h => by
       have h2 : some (3 : Nat) = some idx := h
       injection h2 with h3
       rw [← h3]
       decide),
   C2_amended.2.2 _ _ _ ((invariant_iff _).mpr rfl) (by decide)⟩
